import Mathlib

/-
  Verification of the incremental document ingestion pipeline of the
  odoo-expert repository against its natural-language specification.

  The Python sources are shallowly embedded over lists of characters:

  * module-level pipeline variant: src/document_processor.py
    (clean_section_name, extract_section_anchor, convert_path_to_url,
     create_header_path, chunk_markdown assembly, extract_title_from_chunk,
     get_embedding, insert_chunk, process_markdown_file,
     process_markdown_directory);
  * class-based pipeline variant: src/src/processing/document_processor.py
    (DocumentProcessor.process_chunk_with_update, process_file_with_update,
     process_file retry loop, process_directory checkpoint logic) and
    src/src/core/services/embedding.py (NomicEmbeddingService).

  Strings are List Char (the sources only ever hit the ASCII fragment of the
  Python string operations used here).  Store state is a list of records;
  Supabase insert, select and delete-by-ids are modelled by their effect on
  that list.  External collaborators (the OpenAI/Nomic embedding call, the
  langchain text splitters producing the raw splits) are oracle parameters.
  Python binary64 float arithmetic, which the version computation
  int(float(version_str) * 10) depends on, is modelled exactly over the
  rationals by round-to-nearest-even in the normal range.
-/

namespace OdooExpert

/-- ASCII decimal digit test; the regex class [0-9] used by the path regexes. -/
def isDigitC (c : Char) : Bool := 48 ≤ c.toNat && c.toNat ≤ 57

/-- Python whitespace class (ASCII fragment): space, tab, newline, carriage
return, vertical tab, form feed.  This is both the regex class for the
backslash-s escape and the default strip set of str.strip. -/
def isSpaceC (c : Char) : Bool :=
  c = ' ' || c = '\t' || c = '\n' || c = '\r' || c = Char.ofNat 11 || c = Char.ofNat 12

/-- Characters kept by the anchor-cleaning regex class [a-zA-Z0-9 whitespace -]. -/
def isKeptC (c : Char) : Bool :=
  isDigitC c || (97 ≤ c.toNat && c.toNat ≤ 122) || (65 ≤ c.toNat && c.toNat ≤ 90) ||
  isSpaceC c || c = '-'

/-- Numeric value of a list of ASCII digits, most significant first (Python int). -/
def natOfDigits (l : List Char) : ℕ := l.foldl (fun n c => 10 * n + (c.toNat - 48)) 0

/-- Decimal rendering of a natural number with explicit fuel (any fuel of at
least the digit count is enough; the wrapper below supplies one), as Python
str would produce it. -/
def natToDigitsF : ℕ → ℕ → List Char
  | 0, n => [Char.ofNat (48 + n % 10)]
  | fuel + 1, n =>
    if n < 10 then [Char.ofNat (48 + n)]
    else natToDigitsF fuel (n / 10) ++ [Char.ofNat (48 + n % 10)]

/-- Decimal rendering of a natural number, as Python str would produce it. -/
def natToDigits (n : ℕ) : List Char := natToDigitsF n n

/-- Substring test: Python operator in on strings. -/
def containsSub (pat : List Char) : List Char → Bool
  | [] => pat.isPrefixOf ([] : List Char)
  | c :: t => pat.isPrefixOf (c :: t) || containsSub pat t

/-- Python str.split with a nonempty separator, leftmost and non-overlapping,
with explicit fuel (one unit per character; the wrapper supplies enough). -/
def splitOnSepF (sep : List Char) : ℕ → List Char → List (List Char)
  | _, [] => [[]]
  | 0, l => [l]
  | fuel + 1, c :: t =>
    if sep ≠ [] ∧ sep.isPrefixOf (c :: t) then
      [] :: splitOnSepF sep fuel ((c :: t).drop sep.length)
    else
      match splitOnSepF sep fuel t with
      | [] => [[c]]
      | hd :: r => (c :: hd) :: r

/-- Python str.split with a nonempty separator: leftmost, non-overlapping. -/
def splitOnSep (sep : List Char) (l : List Char) : List (List Char) :=
  splitOnSepF sep l.length l

/-- Python str.strip with the default whitespace set. -/
def stripC (l : List Char) : List Char :=
  ((l.dropWhile isSpaceC).reverse.dropWhile isSpaceC).reverse

/-- Python str.lower restricted to ASCII, which is all the sources feed it. -/
def lowerC (l : List Char) : List Char := l.map Char.toLower

/-- The re.sub of the pattern bracket-hashes-bracket-whitespace with the empty
string, from clean_section_name and extract_section_anchor: at each position,
leftmost non-overlapping, a literal bracket, one or more hash marks, a closing
bracket, then greedily any whitespace, are all removed.  Fuel is one unit per
character; the wrapper supplies enough. -/
def removeHdrMarkersF : ℕ → List Char → List Char
  | _, [] => []
  | 0, l => l
  | fuel + 1, c :: t =>
    if c = '[' then
      let hs := t.takeWhile (fun x => x = '#')
      let r1 := t.drop hs.length
      if hs ≠ [] ∧ r1.head? = some ']' then
        removeHdrMarkersF fuel ((r1.drop 1).dropWhile isSpaceC)
      else c :: removeHdrMarkersF fuel t
    else c :: removeHdrMarkersF fuel t

/-- The header-marker re.sub at adequate fuel. -/
def removeHdrMarkers (l : List Char) : List Char := removeHdrMarkersF l.length l

/-- The re.sub of the custom-anchor pattern (an opening brace, a hash, a lazy
dot-star, a closing brace) with the empty string, from clean_section_name.
The dot does not match a newline, so the match needs a closing brace with no
intervening newline; otherwise the scan moves one character forward. -/
def removeCustomAnchorsF : ℕ → List Char → List Char
  | _, [] => []
  | 0, l => l
  | fuel + 1, c :: t =>
    if c = Char.ofNat 123 ∧ t.head? = some '#' then
      let body := (t.drop 1).takeWhile (fun x => x ≠ Char.ofNat 125 && x ≠ '\n')
      let rem := (t.drop 1).drop body.length
      if rem.head? = some (Char.ofNat 125) then
        removeCustomAnchorsF fuel (rem.drop 1)
      else c :: removeCustomAnchorsF fuel t
    else c :: removeCustomAnchorsF fuel t

/-- The custom-anchor re.sub at adequate fuel. -/
def removeCustomAnchors (l : List Char) : List Char := removeCustomAnchorsF l.length l

/-- The re.sub replacing every maximal whitespace run with a single dash,
from clean_section_name. -/
def collapseSpacesF : ℕ → List Char → List Char
  | _, [] => []
  | 0, l => l
  | fuel + 1, c :: t =>
    if isSpaceC c then '-' :: collapseSpacesF fuel (t.dropWhile isSpaceC)
    else c :: collapseSpacesF fuel t

/-- The whitespace-run re.sub at adequate fuel. -/
def collapseSpaces (l : List Char) : List Char := collapseSpacesF l.length l

/-- clean_section_name from src/document_processor.py: drop header markers and
custom anchors, keep only alphanumerics, whitespace and dashes, lowercase,
strip, and turn whitespace runs into dashes. -/
def cleanSectionName (title : List Char) : List Char :=
  collapseSpaces (stripC (lowerC ((removeCustomAnchors (removeHdrMarkers title)).filter isKeptC)))

/-- extract_section_anchor from src/document_processor.py: the last segment of
the header path (split on the spaced angle separator), header marker removed,
cleaned into an anchor. -/
def extractSectionAnchor (headerPath : List Char) : List Char :=
  if headerPath = [] then []
  else
    cleanSectionName (removeHdrMarkers ((splitOnSep " > ".toList headerPath).getLastD []))

/-! ### Python binary64 arithmetic

The version computation int(float(version_str) * 10) runs through Python
floats.  CPython parses decimal literals and multiplies with IEEE 754 binary64
round-to-nearest-even semantics; these definitions model that rounding exactly
with fraction pairs (numerator and positive denominator, not normalized so
that every operation is plain integer arithmetic), in the normal range: all
values arising from version strings are far inside it, so neither subnormals
nor overflow are modelled. -/

/-- An exact fraction: numerator and denominator.  Every fraction built below
has a positive denominator. -/
abbrev Frac := ℤ × ℤ

/-- Fraction addition. -/
def fAdd (x y : Frac) : Frac := (x.1 * y.2 + y.1 * x.2, x.2 * y.2)

/-- Fraction multiplication. -/
def fMul (x y : Frac) : Frac := (x.1 * y.1, x.2 * y.2)

/-- Fraction negation and absolute value. -/
def fNeg (x : Frac) : Frac := (-x.1, x.2)

/-- Absolute value of a fraction with positive denominator. -/
def fAbs (x : Frac) : Frac := (|x.1|, x.2)

/-- Strict comparison of fractions with positive denominators. -/
def fLt (x y : Frac) : Bool := x.1 * y.2 < y.1 * x.2

/-- Loose comparison of fractions with positive denominators. -/
def fLe (x y : Frac) : Bool := x.1 * y.2 ≤ y.1 * x.2

/-- Floor of a fraction with positive denominator. -/
def fFloor (x : Frac) : ℤ := Int.fdiv x.1 x.2

/-- Truncation toward zero, the Python int() of a float value. -/
def fTrunc (x : Frac) : ℤ := Int.tdiv x.1 x.2

/-- Embedding of an integer as a fraction. -/
def fOfInt (n : ℤ) : Frac := (n, 1)

/-- Two to an integer power, as a fraction. -/
def pow2f (e : ℤ) : Frac :=
  if 0 ≤ e then ((2 ^ e.toNat : ℕ), 1) else (1, ((2 ^ (-e).toNat : ℕ) : ℤ))

/-- Round a fraction to the nearest integer, ties to even. -/
def rneInt (x : Frac) : ℤ :=
  let f := fFloor x
  let r := fAdd x (fNeg (fOfInt f))
  if fLt r (1, 2) then f
  else if fLt (1, 2) r then f + 1
  else if f % 2 = 0 then f else f + 1

/-- Floor of the base-two logarithm of a natural number, with fuel (one unit
per halving; the wrapper supplies enough). -/
def log2F : ℕ → ℕ → ℕ
  | 0, _ => 0
  | fuel + 1, n => if 2 ≤ n then log2F fuel (n / 2) + 1 else 0

/-- Floor of the base-two logarithm of a natural number. -/
def log2N (n : ℕ) : ℕ := log2F n n

/-- Floor of the base-two logarithm of a positive fraction. -/
def flog2 (x : Frac) : ℤ :=
  let c : ℤ := (log2N x.1.natAbs : ℤ) - (log2N x.2.natAbs : ℤ)
  if fLe (pow2f c) (fAbs x) then c else c - 1

/-- Round a fraction to the nearest binary64 value (normal range),
round-to-nearest with ties to the even 53-bit mantissa. -/
def roundDouble (x : Frac) : Frac :=
  if x.1 = 0 then (0, 1)
  else
    let a := fAbs x
    let e := flog2 a
    let r := fMul (fOfInt (rneInt (fMul a (pow2f (52 - e))))) (pow2f (e - 52))
    if x.1 < 0 then fNeg r else r

/-- The value of the decimal token d1.d2 of the version regex group. -/
def decForm (d1 d2 : List Char) : Frac :=
  fAdd (fOfInt (natOfDigits d1)) ((natOfDigits d2 : ℤ), ((10 ^ d2.length : ℕ) : ℤ))

/-- The version integer computed by convert_path_to_url:
int(float(version_str) * 10) under binary64 semantics. -/
def pyVersion (d1 d2 : List Char) : ℤ :=
  fTrunc (roundDouble (fMul (roundDouble (decForm d1 d2)) (fOfInt 10)))

/-- The literal slash-versions-slash segment both path regexes start with. -/
def verLit : List Char := "/versions/".toList

/-- Attempt of the version-segment pattern at one position: the literal
segment, one or more digits (greedily, so the maximal run, and backtracking
cannot help because a digit never matches the following dot), a dot, one or
more digits, a slash.  Returns the two digit groups and the remainder after
the trailing slash. -/
def matchVersionsAt (l : List Char) : Option (List Char × List Char × List Char) :=
  if verLit.isPrefixOf l then
    if (l.drop verLit.length).takeWhile isDigitC = [] then none
    else
      match (l.drop verLit.length).dropWhile isDigitC with
      | '.' :: r2 =>
        if r2.takeWhile isDigitC = [] then none
        else
          match r2.dropWhile isDigitC with
          | '/' :: r4 =>
            some ((l.drop verLit.length).takeWhile isDigitC, r2.takeWhile isDigitC, r4)
          | _ => none
      | _ => none
  else none

/-- The re.search scan for the version-segment pattern: leftmost match. -/
def findVersions : List Char → Option (List Char × List Char × List Char)
  | [] => none
  | c :: t =>
    match matchVersionsAt (c :: t) with
    | some r => some r
    | none => findVersions t

/-- Condition for the second regex (version segment, then a lazy nonempty
group, then a literal dot-md at end of string) to succeed with the remainder
found after the first version segment: the remainder must end in dot-md and
leave a nonempty group.  Because the dollar anchor is global to the string and
later version segments only shorten the remainder, the second re.search
succeeds exactly when the remainder after the FIRST version segment satisfies
this (proved below as part of the success characterization). -/
def mdOk (r : List Char) : Bool := ".md".toList.isSuffixOf r && decide (4 ≤ r.length)

/-- The re.sub dropping one leading content-slash prefix (the pattern is
anchored at the start, so it fires at most once). -/
def dropContentPrefix (p : List Char) : List Char :=
  if "content/".toList.isPrefixOf p then p.drop "content/".toList.length else p

/-- The successful return value of convert_path_to_url: the base URL template
with the original dotted version string, the content path below the version
segment (the remainder with its final dot-md removed and one leading
content-slash prefix dropped) plus dot-html, with an anchor fragment appended
only when the cleaned last heading-path segment is non-empty; paired with the
binary64 version integer. -/
def mkLocator (d1 d2 rmd headerPath : List Char) : List Char × ℤ :=
  let contentPath := dropContentPrefix (rmd.take (rmd.length - 3))
  let versionStr := d1 ++ '.' :: d2
  let url0 := "https://www.odoo.com/documentation/".toList ++ versionStr ++
    '/' :: contentPath ++ ".html".toList
  let anchor := extractSectionAnchor headerPath
  ((if anchor = [] then url0 else url0 ++ '#' :: anchor), pyVersion d1 d2)

/-- convert_path_to_url from src/document_processor.py.  A none models the
ValueError raised when either regex fails to match.  The two re.search calls
are modelled by the single leftmost version-segment match: both patterns open
with the identical version segment, so their leftmost matches start at the
same position, and if the remainder after that first segment fails the
dot-md condition no later starting position can succeed (later remainders are
strict suffixes and the end anchor is global; proved below as
findVersions_first_mdOk).  Group one of the first regex is the dotted digit
pair. -/
def convertPathToUrl (filePath headerPath : List Char) : Option (List Char × ℤ) :=
  match findVersions filePath with
  | none => none
  | some (d1, d2, rest) =>
    if mdOk rest then some (mkLocator d1 d2 rest headerPath) else none

/-! ### Title extraction (extract_title_from_chunk, identical in both variants) -/

/-- Metadata of a chunk dictionary: the optional header-path entry and the
optional Header 1 through Header 4 entries produced by the markdown header
splitter.  A missing key is none; dictionary truthiness of an empty string is
modelled separately. -/
structure ChunkMeta where
  headerPath : Option (List Char) := none
  header1 : Option (List Char) := none
  header2 : Option (List Char) := none
  header3 : Option (List Char) := none
  header4 : Option (List Char) := none
deriving DecidableEq, Repr

/-- A chunk dictionary: content plus metadata. -/
structure Chunk where
  content : List Char
  meta : ChunkMeta := {}
deriving DecidableEq, Repr

/-- Python test key-in-dict-and-truthy for an optional string entry. -/
def truthy : Option (List Char) → Bool
  | some s => s ≠ []
  | none => false

/-- Attempt of the multiline header pattern (caret, hashes, whitespace, a
captured nonempty dot-group, dollar) at one line-start position.  The hash run
and whitespace run are greedy; the whitespace escape also matches newlines, so
when the maximal whitespace run reaches the end of the string the engine
backtracks the whitespace one character at a time: the first retraction that
puts a non-newline character at the front of what is left succeeds, so the
group becomes the LAST non-newline character of the run (every later run
character is a newline, so the dot-group stops after that one character),
provided such a character sits at index at least one of the run (the escape
still has to consume at least one character). -/
def matchHeaderAt (l : List Char) : Option (List Char) :=
  let hs := l.takeWhile (fun c => c = '#')
  if hs = [] then none
  else
    let afterH := l.drop hs.length
    let sRun := afterH.takeWhile isSpaceC
    if sRun = [] then none
    else
      let rest := afterH.drop sRun.length
      let group := rest.takeWhile (fun c => c ≠ '\n')
      if group ≠ [] then some group
      else if 2 ≤ (sRun.reverse.dropWhile (fun c => c = '\n')).length then
        some [(sRun.reverse.dropWhile (fun c => c = '\n')).headD ' ']
      else none

/-- The re.search scan for the multiline header pattern: positions are tried
left to right and the caret anchors matches to the start of the string or the
position right after a newline.  Fuel is one unit per character. -/
def scanHeaderF : ℕ → Bool → List Char → Option (List Char)
  | fuel, atStart, l =>
    match (if atStart then matchHeaderAt l else none) with
    | some g => some g
    | none =>
      match fuel, l with
      | _, [] => none
      | 0, _ => none
      | fuel + 1, c :: t => scanHeaderF fuel (c = '\n') t

/-- The multiline header re.search at adequate fuel. -/
def scanHeader (atStart : Bool) (l : List Char) : Option (List Char) :=
  scanHeaderF l.length atStart l

/-- The content the in-content header search of extract_title_from_chunk runs
over: the chunk content with a leading header-path line (detected by the
bracket-hash and spaced-angle substrings in the first line) removed. -/
def titleSearchContent (ck : Chunk) : List Char :=
  let lines := splitOnSep ['\n'] ck.content
  if containsSub "[#".toList (lines.headD []) ∧ containsSub " > ".toList (lines.headD [])
  then List.intercalate ['\n'] lines.tail
  else ck.content

/-- extract_title_from_chunk, line for line: the truthy header path, else the
first truthy of Header 1 through Header 4, else the first in-content header
found after dropping a leading header-path line, else the stripped first
line, truncated to 97 characters plus an ellipsis when longer than 100. -/
def extractTitleFromChunk (ck : Chunk) : List Char :=
  if truthy ck.meta.headerPath then ck.meta.headerPath.getD []
  else if truthy ck.meta.header1 then ck.meta.header1.getD []
  else if truthy ck.meta.header2 then ck.meta.header2.getD []
  else if truthy ck.meta.header3 then ck.meta.header3.getD []
  else if truthy ck.meta.header4 then ck.meta.header4.getD []
  else
    match scanHeader true (titleSearchContent ck) with
    | some g => g
    | none =>
      let firstLine := stripC ((splitOnSep ['\n'] (titleSearchContent ck)).headD [])
      if 100 < firstLine.length then firstLine.take 97 ++ "...".toList else firstLine

/-! ### Header-path synthesis and chunk assembly (create_header_path,
chunk_markdown final loop, src/document_processor.py) -/

/-- One entry of the header list: the bracketed level marker and the raw
metadata text, emitted only when the key is present and truthy. -/
def headerEntry (i : ℕ) (v : Option (List Char)) : Option (List Char) :=
  match v with
  | some s => if s ≠ [] then some ('[' :: (List.replicate i '#' ++ ']' :: ' ' :: s)) else none
  | none => none

/-- create_header_path: the spaced-angle join of the entries for Header 1
through Header 4. -/
def createHeaderPath (m : ChunkMeta) : List Char :=
  List.intercalate " > ".toList
    ([headerEntry 1 m.header1, headerEntry 2 m.header2,
      headerEntry 3 m.header3, headerEntry 4 m.header4].filterMap id)

/-- One split produced by the langchain splitters (external collaborators):
page content and the header metadata attached by the header splitter. -/
structure Split where
  pageContent : List Char
  header1 : Option (List Char) := none
  header2 : Option (List Char) := none
  header3 : Option (List Char) := none
  header4 : Option (List Char) := none
deriving DecidableEq, Repr

/-- The final loop of chunk_markdown: synthesize the header path, prefix the
content with it (plus a newline) when nonempty, and record it in the chunk
metadata next to the original header entries. -/
def assembleChunk (s : Split) : Chunk :=
  let m0 : ChunkMeta :=
    { headerPath := none, header1 := s.header1, header2 := s.header2,
      header3 := s.header3, header4 := s.header4 }
  let hp := createHeaderPath m0
  { content := if hp ≠ [] then hp ++ '\n' :: s.pageContent else s.pageContent,
    meta := { m0 with headerPath := some hp } }

/-- chunk_markdown restricted to its own logic: the header and size splitting
is done by the external langchain splitters, whose output is the splits
parameter; the chunk dictionaries are assembled in document order. -/
def chunkMarkdownAssemble (splits : List Split) : List Chunk :=
  splits.map assembleChunk

/-! ### Update-mode store pipeline
(DocumentProcessor.process_chunk_with_update and process_file_with_update,
src/src/processing/document_processor.py)

The Supabase table is a list of records.  The select filtered on the metadata
filename and version string followed by the delete of the collected ids
removes exactly the matching records (nothing else touches the store between
the two calls, processing is sequential); the settle sleep has no store
effect.  The embedding call and the processing timestamp are oracles.  The
chunker (markdown_converter.chunk_markdown) is a separate module not present
under src, so the chunk list of a file is a parameter here. -/

/-- A stored passage row, with the metadata entries the pipeline reads back. -/
structure StoreRecord where
  url : List Char
  chunkNumber : ℕ
  title : List Char
  content : List Char
  mFilename : List Char
  mVersionStr : List Char
  mHeaderPath : Option (List Char)
  embedding : List ℤ
  processedAt : List Char
  version : ℤ
deriving DecidableEq, Repr

/-- The Python format of version divided by ten with one decimal digit, for
the nonnegative versions the pipeline uses. -/
def versionStrOf (v : ℤ) : List Char :=
  natToDigits (v.toNat / 10) ++ '.' :: natToDigits (v.toNat % 10)

/-- Path(file_path).name: the part after the last slash. -/
def basenameOf (p : List Char) : List Char := (splitOnSep ['/'] p).getLastD []

/-- The metadata filter of the delete-matching step: metadata filename equals
the file name and metadata version string equals the version string. -/
def matchesFile (fn vs : List Char) (r : StoreRecord) : Bool :=
  r.mFilename = fn && r.mVersionStr = vs

/-- The fresh record process_chunk_with_update inserts for one chunk. -/
def mkUpdateRecord (filePath : List Char) (ck : Chunk) (i : ℕ) (version : ℤ)
    (url : List Char) (emb : List Char → List ℤ) (ts : List Char) : StoreRecord :=
  { url := url, chunkNumber := i, title := extractTitleFromChunk ck,
    content := ck.content, mFilename := basenameOf filePath,
    mVersionStr := versionStrOf version, mHeaderPath := ck.meta.headerPath,
    embedding := emb ck.content, processedAt := ts, version := version }

/-- process_chunk_with_update: resolve the locator (a failure propagates),
select and delete every record whose metadata matches the file name and
version string, then insert the fresh record for this chunk. -/
def processChunkWithUpdate (filePath : List Char) (ck : Chunk) (i : ℕ) (version : ℤ)
    (emb : List Char → List ℤ) (ts : List Char) (store : List StoreRecord) :
    Option (List StoreRecord) :=
  match convertPathToUrl filePath (ck.meta.headerPath.getD []) with
  | none => none
  | some (url, _) =>
    let fn := basenameOf filePath
    let vs := versionStrOf version
    some ((store.filter (fun r => !(matchesFile fn vs r))) ++
      [mkUpdateRecord filePath ck i version url emb ts])

/-- The sequential chunk loop of process_file_with_update, carrying the chunk
index; an error in any chunk aborts the file. -/
def processChunksWithUpdate (filePath : List Char) (version : ℤ)
    (emb : List Char → List ℤ) (ts : ℕ → List Char) :
    ℕ → List Chunk → List StoreRecord → Option (List StoreRecord)
  | _, [], store => some store
  | i, ck :: cks, store =>
    match processChunkWithUpdate filePath ck i version emb (ts i) store with
    | none => none
    | some s2 => processChunksWithUpdate filePath version emb ts (i + 1) cks s2

/-- process_file_with_update: chunk the file (the chunks parameter) and run
the per-chunk update sequentially from index zero. -/
def processFileWithUpdate (filePath : List Char) (chunks : List Chunk) (version : ℤ)
    (emb : List Char → List ℤ) (ts : ℕ → List Char) (store : List StoreRecord) :
    Option (List StoreRecord) :=
  processChunksWithUpdate filePath version emb ts 0 chunks store

/-! ### Embedding clients

get_embedding from src/document_processor.py (the default OpenAI client with
the zero-vector fallback) and NomicEmbeddingService.get_embedding from
src/src/core/services/embedding.py (the re-raising variant).  The network
call is an oracle returning none on any failure. -/

/-- The input preparation both variants perform before submission: newlines
become spaces, and text longer than 8000 characters is cut to its first 8000
characters plus an ellipsis marker. -/
def truncateForEmbedding (text : List Char) : List Char :=
  let t := text.map (fun c => if c = '\n' then ' ' else c)
  if 8000 < t.length then t.take 8000 ++ "...".toList else t

/-- get_embedding, default variant: any failure of the call is caught and a
zero vector of the model dimensionality 1536 is returned. -/
def getEmbeddingDefault (call : List Char → Option (List ℤ)) (text : List Char) : List ℤ :=
  match call (truncateForEmbedding text) with
  | some v => v
  | none => List.replicate 1536 (0 : ℤ)

/-- NomicEmbeddingService.get_embedding: the same preparation, but a failure
of the call is re-raised. -/
def nomicGetEmbedding (call : List Char → Option (List ℤ)) (text : List Char) :
    Except Unit (List ℤ) :=
  match call (truncateForEmbedding text) with
  | some v => Except.ok v
  | none => Except.error ()

/-! ### Retry loop and checkpointed directory walk
(DocumentProcessor.process_file and process_directory,
src/src/processing/document_processor.py)

The outcome of one attempt of process_chunk is an oracle (true means the
attempt raises); the loop structure, attempt counts and sleeps are modelled
exactly.  The progress checkpoint is an association list from version string
to the list of completed file paths; every call of _save_progress is recorded
as a snapshot, so persistence order is visible in the model. -/

/-- The retry loop of process_file over the list of remaining attempt
indices: returns whether the chunk eventually succeeded, the number of
attempts made, and the sleeps (retry delay times the one-based attempt
number) performed between attempts.  The Python test for the last attempt
index (attempt equals max retries minus one) is, over the range of attempt
indices, the test that no attempts remain, where a failure is re-raised with
no further sleep. -/
def retryLoop (fails : ℕ → Bool) (retryDelay : ℕ) : List ℕ → Bool × ℕ × List ℕ
  | [] => (false, 0, [])
  | a :: rest =>
    if fails a then
      if rest = [] then (false, 1, [])
      else
        let r := retryLoop fails retryDelay rest
        (r.1, r.2.1 + 1, retryDelay * (a + 1) :: r.2.2)
    else (true, 1, [])

/-- The retry loop with the constants of process_file: max_retries 3,
retry_delay 1. -/
def runChunkRetries (fails : ℕ → Bool) : Bool × ℕ × List ℕ :=
  retryLoop fails 1 (List.range 3)

/-- The chunk loop of process_file: chunks in order, a chunk that exhausts
its retries re-raises and aborts the file. -/
def processFileChunksA (fails : ℕ → ℕ → Bool) : List ℕ → Bool
  | [] => true
  | i :: rest => if (runChunkRetries (fails i)).1 then processFileChunksA fails rest else false

/-- process_file of the checkpoint-tracking variant, for a file with the
given number of chunks: true when every chunk succeeded within its retries. -/
def processFileA (fails : ℕ → ℕ → Bool) (numChunks : ℕ) : Bool :=
  processFileChunksA fails (List.range numChunks)

/-- The processing-progress checkpoint: version string to completed files. -/
abbrev Progress := List (List Char × List (List Char))

/-- Lookup of a version key in the checkpoint. -/
def progLookup (p : Progress) (v : List Char) : Option (List (List Char)) :=
  (p.find? (fun e => e.1 = v)).map (fun e => e.2)

/-- Write a version entry, replacing an existing one. -/
def progSet (p : Progress) (v : List Char) (files : List (List Char)) : Progress :=
  if (p.find? (fun e => e.1 = v)).isSome
  then p.map (fun e => if e.1 = v then (v, files) else e)
  else p ++ [(v, files)]

/-- Add a completed file under a version key. -/
def progAdd (p : Progress) (v : List Char) (f : List Char) : Progress :=
  progSet p v (((progLookup p v).getD []) ++ [f])

/-- Membership of a file in the checkpoint entry of a version. -/
def progHas (p : Progress) (v : List Char) (f : List Char) : Bool :=
  ((progLookup p v).getD []).contains f

/-- State threaded through the directory walk: the in-memory progress, every
snapshot passed to _save_progress so far, and the files attempted. -/
structure DirStateA where
  progress : Progress
  saves : List Progress
  attempted : List (List Char)

/-- The inner file loop of process_directory for one version: checkpointed
files are skipped; a completed file is added to the progress and the progress
is saved immediately; a failed file is not added and the error propagates
(abort flag true). -/
def runFilesA (chunksOf : List Char → ℕ) (fails : List Char → ℕ → ℕ → Bool)
    (v : List Char) : List (List Char) → DirStateA → DirStateA × Bool
  | [], st => (st, false)
  | f :: rest, st =>
    if progHas st.progress v f then runFilesA chunksOf fails v rest st
    else
      let st1 : DirStateA := { st with attempted := st.attempted ++ [f] }
      if processFileA (fails f) (chunksOf f) then
        let p2 := progAdd st1.progress v f
        runFilesA chunksOf fails v rest
          { st1 with progress := p2, saves := st1.saves ++ [p2] }
      else (st1, true)

/-- The fixed version directories of both directory walks. -/
def versionDirs : List (List Char) := ["16.0", "17.0", "18.0"].map String.toList

/-- The outer version loop of process_directory: missing directories are
skipped, a missing progress entry is initialized to the empty set, and an
abort in the file loop propagates. -/
def runVersionsA (dirsExist : List Char → Bool) (filesFor : List Char → List (List Char))
    (chunksOf : List Char → ℕ) (fails : List Char → ℕ → ℕ → Bool) :
    List (List Char) → DirStateA → DirStateA × Bool
  | [], st => (st, false)
  | v :: vs, st =>
    if dirsExist v then
      match runFilesA chunksOf fails v (filesFor v)
          (if (progLookup st.progress v).isSome then st
            else { st with progress := progSet st.progress v [] }) with
      | (st2, true) => (st2, true)
      | (st2, false) => runVersionsA dirsExist filesFor chunksOf fails vs st2
    else runVersionsA dirsExist filesFor chunksOf fails vs st

/-- process_directory: load the checkpoint (the init parameter), walk the
version directories, and in all cases (the finally block) save the progress
once more at exit.  The boolean is true when the walk aborted on a failing
file. -/
def processDirectoryA (dirsExist : List Char → Bool) (filesFor : List Char → List (List Char))
    (chunksOf : List Char → ℕ) (fails : List Char → ℕ → ℕ → Bool) (init : Progress) :
    DirStateA × Bool :=
  match runVersionsA dirsExist filesFor chunksOf fails versionDirs
      { progress := init, saves := [], attempted := [] } with
  | (st, ab) => ({ st with saves := st.saves ++ [st.progress] }, ab)

/-! ### Module-level pipeline variant
(process_chunk, insert_chunk, process_markdown_file and
process_markdown_directory, src/document_processor.py) -/

/-- A ProcessedChunk of the module-level variant (the free-form metadata map
is not read back by this variant and is omitted). -/
structure ProcessedChunkB where
  url : List Char
  chunkNumber : ℕ
  title : List Char
  summary : List Char
  content : List Char
  embedding : List ℤ
  version : ℤ
deriving DecidableEq, Repr

/-- process_chunk: resolve the locator (a failure raises and propagates),
extract the title, obtain the summary (get_title_and_summary never raises:
any failure yields a placeholder, folded into the summary oracle) and the
embedding with the zero-vector fallback. -/
def processChunkB (filePath : List Char) (ck : Chunk) (i : ℕ)
    (summaryOracle : ℕ → List Char) (emb : List Char → Option (List ℤ)) :
    Option ProcessedChunkB :=
  match convertPathToUrl filePath (ck.meta.headerPath.getD []) with
  | none => none
  | some (url, version) =>
    some { url := url, chunkNumber := i, title := extractTitleFromChunk ck,
           summary := summaryOracle i, content := ck.content,
           embedding := getEmbeddingDefault emb ck.content, version := version }

/-- insert_chunk: the store insert is an oracle; every exception it raises is
caught and none is returned in place of the result. -/
def insertChunkB (ins : ProcessedChunkB → Except Unit Unit) (c : ProcessedChunkB) :
    Option Unit :=
  match ins c with
  | Except.ok r => some r
  | Except.error _ => none

/-- Gathering of per-chunk tasks: all results, or a propagated failure. -/
def mapOption (f : α → Option β) : List α → Option (List β)
  | [] => some []
  | a :: t =>
    match f a, mapOption f t with
    | some b, some bs => some (b :: bs)
    | _, _ => none

/-- process_markdown_file: chunk the file, process every chunk (a locator
failure fails the whole file), then run insert_chunk on every processed
chunk.  The returned list records which inserts reported a result. -/
def processMarkdownFileB (filePath : List Char) (splits : List Split)
    (summaryOracle : ℕ → List Char) (emb : List Char → Option (List ℤ))
    (ins : ProcessedChunkB → Except Unit Unit) : Option (List (Option Unit)) :=
  let chunks := chunkMarkdownAssemble splits
  match mapOption (fun p => processChunkB filePath p.2 p.1 summaryOracle emb)
      chunks.enum with
  | none => none
  | some pcs => some (pcs.map (insertChunkB ins))

/-- process_markdown_directory: every markdown file of every existing version
directory is attempted in order; a file error is logged and the walk
continues with the next file.  Returns the attempted files and the files
whose processing reported success. -/
def processMarkdownDirectoryB (dirsExist : List Char → Bool)
    (filesFor : List Char → List (List Char)) (fileRun : List Char → Option Unit) :
    List (List Char) × List (List Char) :=
  let files := (versionDirs.filter dirsExist).flatMap filesFor
  (files, files.filter (fun f => (fileRun f).isSome))

/-! ## Claims

Each claim of the specification is settled by one theorem below, stated over
the definitions above. -/

/-! ### Update-mode lemmas (claims C1 and C2) -/

/-- The predicate kept by the delete-matching step. -/
def notMatching (fp : List Char) (v : ℤ) (r : StoreRecord) : Bool :=
  !(matchesFile (basenameOf fp) (versionStrOf v) r)

/-- Success of one file of the checkpointed walk, as the walk computes it. -/
def okFileA (chunksOf : List Char → ℕ) (fails : List Char → ℕ → ℕ → Bool)
    (f : List Char) : Bool :=
  processFileA (fails f) (chunksOf f)

theorem mkUpdateRecord_matches (fp : List Char) (ck : Chunk) (i : ℕ) (v : ℤ)
    (url : List Char) (e : List Char → List ℤ) (ts : List Char) :
    notMatching fp v (mkUpdateRecord fp ck i v url e ts) = false := by
  simp [notMatching, matchesFile, mkUpdateRecord]

theorem filter_step (fp : List Char) (v : ℤ) (s : List StoreRecord) (ck : Chunk)
    (i : ℕ) (url : List Char) (e : List Char → List ℤ) (ts : List Char) :
    (s.filter (notMatching fp v) ++ [mkUpdateRecord fp ck i v url e ts]).filter
        (notMatching fp v) = s.filter (notMatching fp v) := by
  simp [List.filter_append, List.filter_filter, mkUpdateRecord_matches]

theorem notMatching_eta (fp : List Char) (v : ℤ) :
    (fun r => !matchesFile (basenameOf fp) (versionStrOf v) r) = notMatching fp v := rfl

/-- Shape of a successful chunk loop over a nonempty chunk list: whatever the
incoming store, the final store is the incoming store minus every record
matching the file, followed by exactly one fresh record, the one of the LAST
chunk (each later chunk first deletes everything matching the file, which
includes the records just inserted for the earlier chunks). -/
theorem pCsWU_shape (fp : List Char) (v : ℤ) (e : List Char → List ℤ)
    (t : ℕ → List Char) :
    ∀ (cs : List Chunk) (i : ℕ) (s S : List StoreRecord), cs ≠ [] →
      processChunksWithUpdate fp v e t i cs s = some S →
      ∃ url, convertPathToUrl fp ((cs.getLastD { content := [] }).meta.headerPath.getD [])
          = some url ∧
        S = s.filter (notMatching fp v) ++
          [mkUpdateRecord fp (cs.getLastD { content := [] }) (i + cs.length - 1) v
            url.1 e (t (i + cs.length - 1))] := by
  intro cs
  induction cs with
  | nil => intro i s S hne; exact absurd rfl hne
  | cons c cs ih =>
    intro i s S _ hrun
    rw [processChunksWithUpdate] at hrun
    unfold processChunkWithUpdate at hrun
    cases hcv : convertPathToUrl fp (c.meta.headerPath.getD []) with
    | none => rw [hcv] at hrun; exact absurd hrun (by simp)
    | some u =>
      rw [hcv] at hrun
      simp only at hrun
      rw [notMatching_eta] at hrun
      cases cs with
      | nil =>
        simp only [processChunksWithUpdate, Option.some.injEq] at hrun
        subst hrun
        exact ⟨u, by simpa using hcv, by simp [List.getLastD]⟩
      | cons c2 cs2 =>
        obtain ⟨url, hurl, hS⟩ := ih (i + 1) _ S (by simp) hrun
        refine ⟨url, by simpa using hurl, ?_⟩
        rw [hS, filter_step]
        have hlen : i + 1 + (c2 :: cs2).length - 1 = i + (c :: c2 :: cs2).length - 1 := by
          simp; omega
        simp only [List.getLastD_cons]
        rw [hlen]

/-- Success of the chunk loop does not depend on the store, the embedding
oracle or the timestamps: only locator resolution can fail. -/
theorem pCsWU_succeeds (fp : List Char) (v : ℤ) (e1 e2 : List Char → List ℤ)
    (t1 t2 : ℕ → List Char) :
    ∀ (cs : List Chunk) (i : ℕ) (s s' : List StoreRecord) (S : List StoreRecord),
      processChunksWithUpdate fp v e1 t1 i cs s = some S →
      ∃ S', processChunksWithUpdate fp v e2 t2 i cs s' = some S' := by
  intro cs
  induction cs with
  | nil => intro i s s' S _; exact ⟨s', rfl⟩
  | cons c cs ih =>
    intro i s s' S hrun
    rw [processChunksWithUpdate] at hrun ⊢
    unfold processChunkWithUpdate at hrun ⊢
    cases hcv : convertPathToUrl fp (c.meta.headerPath.getD []) with
    | none => rw [hcv] at hrun; exact absurd hrun (by simp)
    | some u =>
      rw [hcv] at hrun
      obtain ⟨S', hS'⟩ := ih (i + 1)
        (s.filter (fun r => !matchesFile (basenameOf fp) (versionStrOf v) r) ++
          [mkUpdateRecord fp c i v u.1 e1 (t1 i)])
        (s'.filter (fun r => !matchesFile (basenameOf fp) (versionStrOf v) r) ++
          [mkUpdateRecord fp c i v u.1 e2 (t2 i)]) S hrun
      exact ⟨S', hS'⟩

/-- Claim C1: in update mode, running the ingestion of an unchanged file a
second time, over the store state produced by the first run, succeeds and
yields the same set of stored passages as the single run: the same locators
in the same positions, the same count, and the same list of
(locator, sequence index, version) triples, so re-ingestion of an unchanged
file never creates duplicate triples in the store.  The embedding and
timestamp oracles of the two runs may differ arbitrarily. -/
theorem c1_update_idempotent (fp : List Char) (chunks : List Chunk) (version : ℤ)
    (emb1 emb2 : List Char → List ℤ) (ts1 ts2 : ℕ → List Char)
    (store S1 : List StoreRecord)
    (h : processFileWithUpdate fp chunks version emb1 ts1 store = some S1) :
    ∃ S2, processFileWithUpdate fp chunks version emb2 ts2 S1 = some S2 ∧
      S2.map (fun r => (r.url, r.chunkNumber, r.version)) =
        S1.map (fun r => (r.url, r.chunkNumber, r.version)) ∧
      S2.map (fun r => r.url) = S1.map (fun r => r.url) ∧
      S2.length = S1.length := by
  cases chunks with
  | nil => exact ⟨S1, rfl, rfl, rfl, rfl⟩
  | cons c cs =>
    obtain ⟨S2, h2⟩ :=
      pCsWU_succeeds fp version emb1 emb2 ts1 ts2 (c :: cs) 0 store S1 S1 h
    obtain ⟨u1, hu1, hS1⟩ :=
      pCsWU_shape fp version emb1 ts1 (c :: cs) 0 store S1 (by simp) h
    obtain ⟨u2, hu2, hS2⟩ :=
      pCsWU_shape fp version emb2 ts2 (c :: cs) 0 S1 S2 (by simp) h2
    have huu : u1 = u2 := by
      rw [hu1] at hu2; exact (Option.some.injEq _ _).mp hu2
    subst huu
    rw [hS1, filter_step] at hS2
    refine ⟨S2, h2, ?_, ?_, ?_⟩ <;>
      rw [hS1, hS2] <;> simp [mkUpdateRecord]

/-- Witness for claim C1 at a concrete one-chunk file and the store produced
by its first ingestion. -/
theorem c1_update_idempotent_witness :
    ∃ S2, processFileWithUpdate "/x/versions/16.0/content/a/b.md".toList
        [{ content := "A".toList }] 160 (fun _ => [2]) (fun _ => "t2".toList)
        [{ url := "https://www.odoo.com/documentation/16.0/a/b.html".toList,
           chunkNumber := 0, title := "A".toList, content := "A".toList,
           mFilename := "b.md".toList, mVersionStr := "16.0".toList,
           mHeaderPath := none, embedding := [1], processedAt := "t1".toList,
           version := 160 }] = some S2 ∧
      S2.map (fun r => (r.url, r.chunkNumber, r.version)) =
        [({ url := "https://www.odoo.com/documentation/16.0/a/b.html".toList,
            chunkNumber := 0, title := "A".toList, content := "A".toList,
            mFilename := "b.md".toList, mVersionStr := "16.0".toList,
            mHeaderPath := none, embedding := [1], processedAt := "t1".toList,
            version := 160 } : StoreRecord)].map
          (fun r => (r.url, r.chunkNumber, r.version)) ∧
      S2.map (fun r => r.url) =
        [({ url := "https://www.odoo.com/documentation/16.0/a/b.html".toList,
            chunkNumber := 0, title := "A".toList, content := "A".toList,
            mFilename := "b.md".toList, mVersionStr := "16.0".toList,
            mHeaderPath := none, embedding := [1], processedAt := "t1".toList,
            version := 160 } : StoreRecord)].map (fun r => r.url) ∧
      S2.length = 1 :=
  c1_update_idempotent "/x/versions/16.0/content/a/b.md".toList
    [{ content := "A".toList }] 160 (fun _ => [1]) (fun _ => [2])
    (fun _ => "t1".toList) (fun _ => "t2".toList) [] _ (by decide)

/-- Claim C2, the failing input: the delete-matching step of update mode runs
once per chunk, not once per file, and its filename-and-version filter also
matches the sibling passages inserted earlier in the same run.  For a
two-chunk file over an empty store the final store holds only the last
passage (sequence index 1): the complete fresh set of the file is NOT what
remains after the file completes, contradicting the claim that the one batch
delete happens before any of the fresh passages are inserted. -/
theorem c2_update_delete_clobbers_sibling_chunks :
    (processFileWithUpdate "/x/versions/16.0/content/a/b.md".toList
        [{ content := "A".toList }, { content := "B".toList }] 160
        (fun _ => [1]) (fun _ => []) []).map
          (fun s => s.map (fun r => r.chunkNumber)) = some [1] := by
  decide

/-! ### Checkpoint lemmas (claims C3 and C4) -/

theorem find?_map_progSet (v : List Char) (files : List (List Char)) (v' : List Char) :
    ∀ p : Progress,
      ((p.map (fun e => if e.1 = v then (v, files) else e)).find? (fun e => e.1 = v')) =
        (p.find? (fun e => e.1 = v')).map (fun e => if e.1 = v then (v, files) else e) := by
  intro p
  induction p with
  | nil => rfl
  | cons e p ih =>
    by_cases hev : e.1 = v
    · by_cases hvv : v' = v
      · subst hvv
        simp [List.find?_cons, hev]
      · simp only [List.map_cons, List.find?_cons]
        rw [if_pos hev]
        have h1 : (decide ((v, files).1 = v') : Bool) = false := by
          simp; exact fun hx => hvv hx.symm
        have h2 : (decide (e.1 = v') : Bool) = false := by
          simp; rw [hev]; exact fun hx => hvv hx.symm
        rw [h1, h2, ih]
    · simp only [List.map_cons, List.find?_cons]
      rw [if_neg hev]
      by_cases hv' : e.1 = v'
      · have hvv : ¬v' = v := fun h => hev (by rw [hv', h])
        simp [hv', hev, hvv]
      · have h1 : (decide (e.1 = v') : Bool) = false := by simp [hv']
        rw [h1, ih]

theorem progLookup_progSet (p : Progress) (v : List Char) (files : List (List Char))
    (v' : List Char) :
    progLookup (progSet p v files) v' =
      if v' = v then some files else progLookup p v' := by
  unfold progSet progLookup
  by_cases hex : (p.find? (fun e => e.1 = v)).isSome
  · rw [if_pos hex, find?_map_progSet]
    by_cases hvv : v' = v
    · subst hvv
      obtain ⟨e, he⟩ := Option.isSome_iff_exists.mp hex
      have : p.find? (fun e => e.1 = v') = some e := he
      rw [this]
      have he1 : e.1 = v' := by
        have := List.find?_some he
        simpa using this
      simp [he1]
    · rw [if_neg hvv]
      cases hf : p.find? (fun e => e.1 = v') with
      | none => rfl
      | some e =>
        have he1 : e.1 = v' := by
          have := List.find?_some hf
          simpa using this
        have : ¬(e.1 = v) := by rw [he1]; exact hvv
        simp [this]
  · rw [if_neg hex, List.find?_append]
    by_cases hvv : v' = v
    · subst hvv
      have hnone : p.find? (fun e => e.1 = v') = none := by
        cases hf : p.find? (fun e => e.1 = v') with
        | none => rfl
        | some e => rw [hf] at hex; simp at hex
      rw [hnone]
      simp
    · cases hf : p.find? (fun e => e.1 = v') with
      | none =>
        have : (decide ((v, files).1 = v') : Bool) = false := by
          simp; exact fun hx => hvv hx.symm
        simp [List.find?_cons, this, hvv]
      | some e => simp [hvv]

theorem progHas_progAdd (p : Progress) (v f : List Char) (v' g : List Char) :
    progHas (progAdd p v f) v' g = true →
      progHas p v' g = true ∨ (v' = v ∧ g = f) := by
  unfold progHas progAdd
  rw [progLookup_progSet]
  by_cases hvv : v' = v
  · rw [if_pos hvv]
    intro h
    have h2 : g ∈ (progLookup p v).getD [] ∨ g = f := by simpa using h
    rcases h2 with hm | hm
    · left; subst hvv; simpa using hm
    · right; exact ⟨hvv, hm⟩
  · rw [if_neg hvv]
    intro h; left; exact h

theorem progHas_progAdd_self (p : Progress) (v f : List Char) :
    progHas (progAdd p v f) v f = true := by
  unfold progHas progAdd
  rw [progLookup_progSet]
  simp

theorem progHas_progSet_empty (p : Progress) (v : List Char) (v' g : List Char) :
    progHas (progSet p v []) v' g = true → progHas p v' g = true := by
  unfold progHas
  rw [progLookup_progSet]
  by_cases hvv : v' = v
  · rw [if_pos hvv]; intro h; simp at h
  · rw [if_neg hvv]; exact id

/-- The file loop attempts files in order until the first failure: the newly
attempted files all succeeded except possibly a failing last one, the number
of new checkpoint saves equals the number of newly completed files (one save
per completed file), and the loop reports an abort exactly when the last
newly attempted file failed. -/
theorem runFilesA_delta (chunksOf : List Char → ℕ) (fails : List Char → ℕ → ℕ → Bool)
    (v : List Char) :
    ∀ (files : List (List Char)) (st : DirStateA),
      ∃ na ns,
        (runFilesA chunksOf fails v files st).1.attempted = st.attempted ++ na ∧
        (runFilesA chunksOf fails v files st).1.saves = st.saves ++ ns ∧
        ns.length = (na.filter (okFileA chunksOf fails)).length ∧
        ((runFilesA chunksOf fails v files st).2 = true →
          ∃ pre f, na = pre ++ [f] ∧ okFileA chunksOf fails f = false ∧
            ∀ g ∈ pre, okFileA chunksOf fails g = true) ∧
        ((runFilesA chunksOf fails v files st).2 = false →
          ∀ g ∈ na, okFileA chunksOf fails g = true) := by
  intro files
  induction files with
  | nil =>
    intro st
    exact ⟨[], [], by simp [runFilesA], by simp [runFilesA], rfl,
      by simp [runFilesA], by simp [runFilesA]⟩
  | cons f rest ih =>
    intro st
    rw [runFilesA]
    by_cases hskip : progHas st.progress v f
    · rw [if_pos hskip]
      exact ih st
    · rw [if_neg hskip]
      by_cases hok : processFileA (fails f) (chunksOf f)
      · rw [if_pos hok]
        obtain ⟨na, ns, ha, hs, hl, habt, habf⟩ := ih
          { st with attempted := st.attempted ++ [f],
                    progress := progAdd st.progress v f,
                    saves := st.saves ++ [progAdd st.progress v f] }
        refine ⟨f :: na, progAdd st.progress v f :: ns, ?_, ?_, ?_, ?_, ?_⟩
        · simpa using ha
        · simpa using hs
        · simp only [List.filter_cons]
          rw [show okFileA chunksOf fails f = true from hok]
          simpa using hl
        · intro h2
          obtain ⟨pre, g, hna, hg, hpre⟩ := habt h2
          refine ⟨f :: pre, g, by simp [hna], hg, ?_⟩
          intro x hx
          rcases List.mem_cons.mp hx with hx | hx
          · subst hx; exact hok
          · exact hpre x hx
        · intro h2 x hx
          rcases List.mem_cons.mp hx with hx | hx
          · subst hx; exact hok
          · exact habf h2 x hx
      · rw [if_neg hok]
        refine ⟨[f], [], by simp, by simp, ?_, ?_, ?_⟩
        · simp only [List.filter_cons]
          rw [show okFileA chunksOf fails f = false by simpa using hok]
          simp
        · intro _
          exact ⟨[], f, by simp, by simpa using hok, by simp⟩
        · intro h2; simp at h2

/-- Any property of checkpoints preserved by adding a completed file holds
for the in-memory progress and every saved snapshot throughout the file
loop. -/
theorem runFilesA_sound (chunksOf : List Char → ℕ) (fails : List Char → ℕ → ℕ → Bool)
    (v : List Char) (P : Progress → Prop)
    (hAdd : ∀ p v0 f, P p → okFileA chunksOf fails f = true → P (progAdd p v0 f)) :
    ∀ (files : List (List Char)) (st : DirStateA), P st.progress →
      (∀ q ∈ st.saves, P q) →
      P (runFilesA chunksOf fails v files st).1.progress ∧
        ∀ q ∈ (runFilesA chunksOf fails v files st).1.saves, P q := by
  intro files
  induction files with
  | nil => intro st h1 h2; rw [runFilesA]; exact ⟨h1, h2⟩
  | cons f rest ih =>
    intro st h1 h2
    rw [runFilesA]
    by_cases hskip : progHas st.progress v f
    · rw [if_pos hskip]; exact ih st h1 h2
    · rw [if_neg hskip]
      by_cases hok : processFileA (fails f) (chunksOf f)
      · rw [if_pos hok]
        have hP2 : P (progAdd st.progress v f) := hAdd _ _ _ h1 (by simpa using hok)
        refine ih _ hP2 ?_
        intro q hq
        rcases List.mem_append.mp hq with hq | hq
        · exact h2 q hq
        · rw [List.mem_singleton.mp hq]; exact hP2
      · rw [if_neg hok]
        exact ⟨h1, h2⟩

/-- Every file the file loop completes is persisted at once: it appears in a
snapshot saved during the loop. -/
theorem runFilesA_persist (chunksOf : List Char → ℕ) (fails : List Char → ℕ → ℕ → Bool)
    (v : List Char) :
    ∀ (files : List (List Char)) (st : DirStateA),
      (∀ f ∈ st.attempted, okFileA chunksOf fails f = true →
        ∃ q ∈ st.saves, ∃ v', progHas q v' f = true) →
      ∀ f ∈ (runFilesA chunksOf fails v files st).1.attempted,
        okFileA chunksOf fails f = true →
        ∃ q ∈ (runFilesA chunksOf fails v files st).1.saves, ∃ v',
          progHas q v' f = true := by
  intro files
  induction files with
  | nil => intro st h; rw [runFilesA]; exact h
  | cons f rest ih =>
    intro st h
    rw [runFilesA]
    by_cases hskip : progHas st.progress v f
    · rw [if_pos hskip]; exact ih st h
    · rw [if_neg hskip]
      by_cases hok : processFileA (fails f) (chunksOf f)
      · rw [if_pos hok]
        refine ih _ ?_
        intro g hg hgok
        rcases List.mem_append.mp hg with hg | hg
        · obtain ⟨q, hq, v', hqv⟩ := h g hg hgok
          exact ⟨q, by simp [List.mem_append.mpr (Or.inl hq)], v', hqv⟩
        · rw [List.mem_singleton.mp hg]
          exact ⟨progAdd st.progress v f, by simp, v, progHas_progAdd_self _ _ _⟩
      · rw [if_neg hok]
        intro g hg hgok
        rcases List.mem_append.mp hg with hg | hg
        · exact h g hg hgok
        · rw [List.mem_singleton.mp hg] at hgok ⊢
          rw [show okFileA chunksOf fails f = false by simpa using hok] at hgok
          exact absurd hgok (by simp)

/-- The progress-initialization step of one version keeps attempted and saves. -/
theorem stInit_attempted_saves (st : DirStateA) (v : List Char) :
    (if (progLookup st.progress v).isSome then st
      else { st with progress := progSet st.progress v [] }).attempted = st.attempted ∧
    (if (progLookup st.progress v).isSome then st
      else { st with progress := progSet st.progress v [] }).saves = st.saves := by
  by_cases hl : (progLookup st.progress v).isSome
  · rw [if_pos hl]; exact ⟨rfl, rfl⟩
  · rw [if_neg hl]; exact ⟨rfl, rfl⟩

/-- The version loop: same classification as the file loop, lifted over the
fixed version directories, with an abort in any version stopping the walk. -/
theorem runVersionsA_delta (dirsExist : List Char → Bool)
    (filesFor : List Char → List (List Char)) (chunksOf : List Char → ℕ)
    (fails : List Char → ℕ → ℕ → Bool) :
    ∀ (vs : List (List Char)) (st : DirStateA),
      ∃ na ns,
        (runVersionsA dirsExist filesFor chunksOf fails vs st).1.attempted =
          st.attempted ++ na ∧
        (runVersionsA dirsExist filesFor chunksOf fails vs st).1.saves =
          st.saves ++ ns ∧
        ns.length = (na.filter (okFileA chunksOf fails)).length ∧
        ((runVersionsA dirsExist filesFor chunksOf fails vs st).2 = true →
          ∃ pre f, na = pre ++ [f] ∧ okFileA chunksOf fails f = false ∧
            ∀ g ∈ pre, okFileA chunksOf fails g = true) ∧
        ((runVersionsA dirsExist filesFor chunksOf fails vs st).2 = false →
          ∀ g ∈ na, okFileA chunksOf fails g = true) := by
  intro vs
  induction vs with
  | nil =>
    intro st
    exact ⟨[], [], by simp [runVersionsA], by simp [runVersionsA], rfl,
      by simp [runVersionsA], by simp [runVersionsA]⟩
  | cons v vs ih =>
    intro st
    by_cases hex : dirsExist v
    · obtain ⟨ha1, hs1⟩ := stInit_attempted_saves st v
      obtain ⟨na1, ns1, hfa, hfs, hfl, hfbt, hfbf⟩ :=
        runFilesA_delta chunksOf fails v (filesFor v)
          (if (progLookup st.progress v).isSome then st
            else { st with progress := progSet st.progress v [] })
      cases hrf : runFilesA chunksOf fails v (filesFor v)
          (if (progLookup st.progress v).isSome then st
            else { st with progress := progSet st.progress v [] }) with
      | mk st2 ab =>
        rw [hrf] at hfa hfs hfbt hfbf
        cases ab with
        | true =>
          have hstep : runVersionsA dirsExist filesFor chunksOf fails (v :: vs) st =
              (st2, true) := by
            rw [runVersionsA, if_pos hex, hrf]
          rw [hstep]
          refine ⟨na1, ns1, ?_, ?_, hfl, ?_, ?_⟩
          · simpa [ha1] using hfa
          · simpa [hs1] using hfs
          · intro _; exact hfbt rfl
          · intro h2; simp at h2
        | false =>
          have hstep : runVersionsA dirsExist filesFor chunksOf fails (v :: vs) st =
              runVersionsA dirsExist filesFor chunksOf fails vs st2 := by
            rw [runVersionsA, if_pos hex, hrf]
          rw [hstep]
          obtain ⟨na2, ns2, h2a, h2s, h2l, h2bt, h2bf⟩ := ih st2
          refine ⟨na1 ++ na2, ns1 ++ ns2, ?_, ?_, ?_, ?_, ?_⟩
          · rw [h2a, hfa, ha1]; simp
          · rw [h2s, hfs, hs1]; simp
          · simp only [List.filter_append, List.length_append, hfl, h2l]
          · intro h3
            obtain ⟨pre, f, hna, hf, hpre⟩ := h2bt h3
            refine ⟨na1 ++ pre, f, by rw [hna]; simp, hf, ?_⟩
            intro g hg
            rcases List.mem_append.mp hg with hg | hg
            · exact hfbf rfl g hg
            · exact hpre g hg
          · intro h3 g hg
            rcases List.mem_append.mp hg with hg | hg
            · exact hfbf rfl g hg
            · exact h2bf h3 g hg
    · have hstep : runVersionsA dirsExist filesFor chunksOf fails (v :: vs) st =
          runVersionsA dirsExist filesFor chunksOf fails vs st := by
        rw [runVersionsA, if_neg hex]
      rw [hstep]
      exact ih st

/-- Any checkpoint property preserved by adding a completed file and by
initializing a version entry to the empty set holds for the in-memory
progress and every saved snapshot throughout the version loop. -/
theorem runVersionsA_sound (dirsExist : List Char → Bool)
    (filesFor : List Char → List (List Char)) (chunksOf : List Char → ℕ)
    (fails : List Char → ℕ → ℕ → Bool) (P : Progress → Prop)
    (hAdd : ∀ p v0 f, P p → okFileA chunksOf fails f = true → P (progAdd p v0 f))
    (hInit : ∀ p v0, P p → P (progSet p v0 [])) :
    ∀ (vs : List (List Char)) (st : DirStateA), P st.progress →
      (∀ q ∈ st.saves, P q) →
      P (runVersionsA dirsExist filesFor chunksOf fails vs st).1.progress ∧
        ∀ q ∈ (runVersionsA dirsExist filesFor chunksOf fails vs st).1.saves, P q := by
  intro vs
  induction vs with
  | nil => intro st h1 h2; rw [runVersionsA]; exact ⟨h1, h2⟩
  | cons v vs ih =>
    intro st h1 h2
    by_cases hex : dirsExist v
    · have hst1 : P (if (progLookup st.progress v).isSome then st
          else { st with progress := progSet st.progress v [] }).progress := by
        by_cases hl : (progLookup st.progress v).isSome
        · rw [if_pos hl]; exact h1
        · rw [if_neg hl]; exact hInit _ _ h1
      have hst1s : ∀ q ∈ (if (progLookup st.progress v).isSome then st
          else { st with progress := progSet st.progress v [] }).saves, P q := by
        by_cases hl : (progLookup st.progress v).isSome
        · rw [if_pos hl]; exact h2
        · rw [if_neg hl]; exact h2
      obtain ⟨hf1, hf2⟩ := runFilesA_sound chunksOf fails v P hAdd (filesFor v) _ hst1 hst1s
      cases hrf : runFilesA chunksOf fails v (filesFor v)
          (if (progLookup st.progress v).isSome then st
            else { st with progress := progSet st.progress v [] }) with
      | mk st2 ab =>
        rw [hrf] at hf1 hf2
        cases ab with
        | true =>
          have hstep : runVersionsA dirsExist filesFor chunksOf fails (v :: vs) st =
              (st2, true) := by rw [runVersionsA, if_pos hex, hrf]
          rw [hstep]
          exact ⟨hf1, hf2⟩
        | false =>
          have hstep : runVersionsA dirsExist filesFor chunksOf fails (v :: vs) st =
              runVersionsA dirsExist filesFor chunksOf fails vs st2 := by
            rw [runVersionsA, if_pos hex, hrf]
          rw [hstep]
          exact ih st2 hf1 hf2
    · have hstep : runVersionsA dirsExist filesFor chunksOf fails (v :: vs) st =
          runVersionsA dirsExist filesFor chunksOf fails vs st := by
        rw [runVersionsA, if_neg hex]
      rw [hstep]
      exact ih st h1 h2

/-- Every file the version loop completes is persisted at once in a saved
snapshot. -/
theorem runVersionsA_persist (dirsExist : List Char → Bool)
    (filesFor : List Char → List (List Char)) (chunksOf : List Char → ℕ)
    (fails : List Char → ℕ → ℕ → Bool) :
    ∀ (vs : List (List Char)) (st : DirStateA),
      (∀ f ∈ st.attempted, okFileA chunksOf fails f = true →
        ∃ q ∈ st.saves, ∃ v', progHas q v' f = true) →
      ∀ f ∈ (runVersionsA dirsExist filesFor chunksOf fails vs st).1.attempted,
        okFileA chunksOf fails f = true →
        ∃ q ∈ (runVersionsA dirsExist filesFor chunksOf fails vs st).1.saves, ∃ v',
          progHas q v' f = true := by
  intro vs
  induction vs with
  | nil => intro st h; rw [runVersionsA]; exact h
  | cons v vs ih =>
    intro st h
    by_cases hex : dirsExist v
    · have hst1 := runFilesA_persist chunksOf fails v (filesFor v)
        (if (progLookup st.progress v).isSome then st
          else { st with progress := progSet st.progress v [] })
        (by
          obtain ⟨ha1, hs1⟩ := stInit_attempted_saves st v
          rw [ha1, hs1]
          exact h)
      cases hrf : runFilesA chunksOf fails v (filesFor v)
          (if (progLookup st.progress v).isSome then st
            else { st with progress := progSet st.progress v [] }) with
      | mk st2 ab =>
        rw [hrf] at hst1
        cases ab with
        | true =>
          have hstep : runVersionsA dirsExist filesFor chunksOf fails (v :: vs) st =
              (st2, true) := by rw [runVersionsA, if_pos hex, hrf]
          rw [hstep]
          exact hst1
        | false =>
          have hstep : runVersionsA dirsExist filesFor chunksOf fails (v :: vs) st =
              runVersionsA dirsExist filesFor chunksOf fails vs st2 := by
            rw [runVersionsA, if_pos hex, hrf]
          rw [hstep]
          exact ih st2 hst1
    · have hstep : runVersionsA dirsExist filesFor chunksOf fails (v :: vs) st =
          runVersionsA dirsExist filesFor chunksOf fails vs st := by
        rw [runVersionsA, if_neg hex]
      rw [hstep]
      exact ih st h

/-- processDirectoryA unfolded on the result of the version walk. -/
theorem processDirectoryA_eq (dirsExist : List Char → Bool)
    (filesFor : List Char → List (List Char)) (chunksOf : List Char → ℕ)
    (fails : List Char → ℕ → ℕ → Bool) (init : Progress) (st : DirStateA) (ab : Bool)
    (h : runVersionsA dirsExist filesFor chunksOf fails versionDirs
      { progress := init, saves := [], attempted := [] } = (st, ab)) :
    processDirectoryA dirsExist filesFor chunksOf fails init =
      ({ st with saves := st.saves ++ [st.progress] }, ab) := by
  rw [processDirectoryA, h]

/-- Claim C3: in the checkpointed directory walk, (a) every snapshot handed to
_save_progress, the final one included, marks a file only if it was already in
the loaded checkpoint or its processing fully completed without an unrecovered
error, so no snapshot on disk ever contains the in-flight or failed file;
(b) every file that completes is persisted at once, in some saved snapshot,
not batched: (c) the number of saves is exactly the number of newly completed
files plus the one save of the finally block; and (d) a file whose processing
raised and that the loaded checkpoint did not already contain is absent from
the final checkpoint, so the next run does not skip it and re-attempts it. -/
theorem c3_checkpoint_crash_safety (dirsExist : List Char → Bool)
    (filesFor : List Char → List (List Char)) (chunksOf : List Char → ℕ)
    (fails : List Char → ℕ → ℕ → Bool) (init : Progress) :
    (∀ q ∈ (processDirectoryA dirsExist filesFor chunksOf fails init).1.saves,
      ∀ v f, progHas q v f = true →
        (∃ v0, progHas init v0 f = true) ∨ okFileA chunksOf fails f = true) ∧
    (∀ f ∈ (processDirectoryA dirsExist filesFor chunksOf fails init).1.attempted,
      okFileA chunksOf fails f = true →
      ∃ q ∈ (processDirectoryA dirsExist filesFor chunksOf fails init).1.saves,
        ∃ v', progHas q v' f = true) ∧
    ((processDirectoryA dirsExist filesFor chunksOf fails init).1.saves.length =
      ((processDirectoryA dirsExist filesFor chunksOf fails init).1.attempted.filter
        (okFileA chunksOf fails)).length + 1) ∧
    (∀ f, okFileA chunksOf fails f = false → (∀ v0, progHas init v0 f = false) →
      ∀ v0, progHas
        (processDirectoryA dirsExist filesFor chunksOf fails init).1.progress v0 f =
          false) := by
  cases hrv : runVersionsA dirsExist filesFor chunksOf fails versionDirs
      { progress := init, saves := [], attempted := [] } with
  | mk st ab =>
    rw [processDirectoryA_eq dirsExist filesFor chunksOf fails init st ab hrv]
    have hsound := runVersionsA_sound dirsExist filesFor chunksOf fails
      (fun p => ∀ v f, progHas p v f = true →
        (∃ v0, progHas init v0 f = true) ∨ okFileA chunksOf fails f = true)
      (by
        intro p v0 g hP hok v f hf
        rcases progHas_progAdd p v0 g v f hf with hf2 | hf2
        · exact hP v f hf2
        · right; rw [hf2.2]; exact hok)
      (by
        intro p v0 hP v f hf
        exact hP v f (progHas_progSet_empty p v0 v f hf))
      versionDirs { progress := init, saves := [], attempted := [] }
      (by intro v f hf; exact Or.inl ⟨v, hf⟩)
      (by intro q hq; simp at hq)
    rw [hrv] at hsound
    obtain ⟨hprog, hsaves⟩ := hsound
    obtain ⟨na, ns, hna, hns, hlen, _, _⟩ :=
      runVersionsA_delta dirsExist filesFor chunksOf fails versionDirs
        { progress := init, saves := [], attempted := [] }
    rw [hrv] at hna hns
    have hpers := runVersionsA_persist dirsExist filesFor chunksOf fails versionDirs
      { progress := init, saves := [], attempted := [] } (by intro f hf; simp at hf)
    rw [hrv] at hpers
    refine ⟨?_, ?_, ?_, ?_⟩
    · intro q hq v f hf
      simp only [List.mem_append] at hq
      rcases hq with hq | hq
      · exact hsaves q hq v f hf
      · rw [List.mem_singleton.mp hq] at hf
        exact hprog v f hf
    · intro f hf hok
      obtain ⟨q, hq, v', hqv⟩ := hpers f hf hok
      exact ⟨q, by simp [List.mem_append.mpr (Or.inl hq)], v', hqv⟩
    · have hna2 : st.attempted = na := by simpa using hna
      have hns2 : st.saves = ns := by simpa using hns
      simp [hna2, hns2, hlen]
    · intro f hfail hinit v0
      by_contra hcon
      have h1 : progHas st.progress v0 f = true := by
        revert hcon
        cases progHas st.progress v0 f <;> simp
      rcases hprog v0 f h1 with ⟨v1, hv1⟩ | hok
      · rw [hinit v1] at hv1; exact absurd hv1 (by simp)
      · rw [hfail] at hok; exact absurd hok (by simp)

/-- Claim C4: in the checkpoint-tracking variant, every chunk is attempted at
most three times, with the sleeps between attempts growing linearly as the
one-based attempt number times the base delay of one; the retries are
exhausted exactly when all three attempts fail, in which case the error is
re-raised: the chunk loop fails the file at once, and the directory walk
attempts no further file (everything attempted before the failing file had
succeeded) and reports the error.  The variant without checkpoints instead
attempts the same files whatever the per-file outcomes are: a file error is
logged and the walk continues. -/
theorem c4_retry_failfast_vs_continue :
    (∀ fails : ℕ → Bool,
      (runChunkRetries fails).2.1 ≤ 3 ∧
      (runChunkRetries fails).2.2 =
        (List.range ((runChunkRetries fails).2.1 - 1)).map (fun a => 1 * (a + 1)) ∧
      ((runChunkRetries fails).1 = false ↔
        fails 0 = true ∧ fails 1 = true ∧ fails 2 = true) ∧
      ((runChunkRetries fails).1 = false → (runChunkRetries fails).2.1 = 3)) ∧
    (∀ (fails : ℕ → ℕ → Bool) (i : ℕ) (rest : List ℕ),
      (runChunkRetries (fails i)).1 = false →
        processFileChunksA fails (i :: rest) = false) ∧
    (∀ (dirsExist : List Char → Bool) (filesFor : List Char → List (List Char))
        (chunksOf : List Char → ℕ) (fails : List Char → ℕ → ℕ → Bool)
        (init : Progress),
      ((processDirectoryA dirsExist filesFor chunksOf fails init).2 = true →
        ∃ pre f,
          (processDirectoryA dirsExist filesFor chunksOf fails init).1.attempted =
            pre ++ [f] ∧ okFileA chunksOf fails f = false ∧
          ∀ g ∈ pre, okFileA chunksOf fails g = true) ∧
      ((processDirectoryA dirsExist filesFor chunksOf fails init).2 = false →
        ∀ g ∈ (processDirectoryA dirsExist filesFor chunksOf fails init).1.attempted,
          okFileA chunksOf fails g = true)) ∧
    (∀ (dirsExist : List Char → Bool) (filesFor : List Char → List (List Char))
        (r1 r2 : List Char → Option Unit),
      (processMarkdownDirectoryB dirsExist filesFor r1).1 =
        (processMarkdownDirectoryB dirsExist filesFor r2).1) := by
  refine ⟨?_, ?_, ?_, ?_⟩
  · intro fails
    cases hf0 : fails 0 <;> cases hf1 : fails 1 <;> cases hf2 : fails 2 <;>
      simp [runChunkRetries, retryLoop, show List.range 3 = [0, 1, 2] from rfl,
        hf0, hf1, hf2] <;> decide
  · intro fails i rest h
    rw [processFileChunksA, h]
    simp
  · intro dirsExist filesFor chunksOf fails init
    cases hrv : runVersionsA dirsExist filesFor chunksOf fails versionDirs
        { progress := init, saves := [], attempted := [] } with
    | mk st ab =>
      rw [processDirectoryA_eq dirsExist filesFor chunksOf fails init st ab hrv]
      obtain ⟨na, ns, hna, hns, _, habt, habf⟩ :=
        runVersionsA_delta dirsExist filesFor chunksOf fails versionDirs
          { progress := init, saves := [], attempted := [] }
      rw [hrv] at hna hns habt habf
      have hna2 : st.attempted = na := by simpa using hna
      constructor
      · intro hab
        obtain ⟨pre, f, hpre, hf, hall⟩ := habt hab
        exact ⟨pre, f, by rw [hna2, hpre], hf, hall⟩
      · intro hab g hg
        rw [hna2] at hg
        exact habf hab g hg
  · intro dirsExist filesFor r1 r2
    rfl

/-- Witness for claim C4: a directory with three files of which the second
fails; the checkpointed walk reports the abort and its attempted list ends at
the failing file, every earlier attempted file having succeeded. -/
theorem c4_retry_failfast_vs_continue_witness :
    ∃ pre f,
      (processDirectoryA (fun _ => true)
        (fun v => if v = "16.0".toList then
          ["f1".toList, "f2".toList, "f3".toList] else [])
        (fun _ => 1) (fun g _ _ => g = "f2".toList) []).1.attempted = pre ++ [f] ∧
      okFileA (fun _ => 1) (fun g _ _ => g = "f2".toList) f = false ∧
      ∀ g ∈ pre, okFileA (fun _ => 1) (fun g _ _ => g = "f2".toList) g = true :=
  (c4_retry_failfast_vs_continue.2.2.1 (fun _ => true)
    (fun v => if v = "16.0".toList then
      ["f1".toList, "f2".toList, "f3".toList] else [])
    (fun _ => 1) (fun g _ _ => g = "f2".toList) []).1 (by decide)

/-- Results of mapOption have one entry per input. -/
theorem mapOption_length (f : α → Option β) :
    ∀ (l : List α) (res : List β), mapOption f l = some res → res.length = l.length := by
  intro l
  induction l with
  | nil => intro res h; simp [mapOption] at h; simp [h.symm]
  | cons a t ih =>
    intro res h
    rw [mapOption] at h
    cases hfa : f a with
    | none => rw [hfa] at h; simp at h
    | some b =>
      rw [hfa] at h
      cases hmt : mapOption f t with
      | none => rw [hmt] at h; simp at h
      | some bs =>
        rw [hmt] at h
        simp only [Option.some.injEq] at h
        subst h
        simp [ih bs hmt]

/-- Claim C8: both embedding clients prepare the input identically,
submitting at most 8003 characters: newlines become spaces and any input
longer than 8000 characters is cut to its first 8000 characters plus an
ellipsis, so only a truncated text is ever submitted.  When the underlying
call fails, the default client returns a zero vector of the fixed model
dimensionality 1536 instead of raising, so the persisted embedding still has
the fixed length; the alternative deployment variant re-raises the failure.
When the call succeeds both return its vector. -/
theorem c8_embedding_truncation_and_degraded_vector :
    (∀ text : List Char,
      (truncateForEmbedding text).length ≤ 8003 ∧
      (8000 < (text.map (fun c => if c = '\n' then ' ' else c)).length →
        truncateForEmbedding text =
          (text.map (fun c => if c = '\n' then ' ' else c)).take 8000 ++ "...".toList) ∧
      ((text.map (fun c => if c = '\n' then ' ' else c)).length ≤ 8000 →
        truncateForEmbedding text = text.map (fun c => if c = '\n' then ' ' else c))) ∧
    (∀ (call : List Char → Option (List ℤ)) (text : List Char),
      call (truncateForEmbedding text) = none →
        getEmbeddingDefault call text = List.replicate 1536 0 ∧
        (getEmbeddingDefault call text).length = 1536 ∧
        nomicGetEmbedding call text = Except.error ()) ∧
    (∀ (call : List Char → Option (List ℤ)) (text : List Char) (v : List ℤ),
      call (truncateForEmbedding text) = some v →
        getEmbeddingDefault call text = v ∧
        nomicGetEmbedding call text = Except.ok v) := by
  refine ⟨?_, ?_, ?_⟩
  · intro text
    refine ⟨?_, ?_, ?_⟩
    · rw [truncateForEmbedding]
      split
      · simp [List.length_take]
      · simp only [List.length_map] at *
        omega
    · intro h
      rw [truncateForEmbedding, if_pos h]
    · intro h
      rw [truncateForEmbedding, if_neg (by omega)]
  · intro call text h
    rw [getEmbeddingDefault, nomicGetEmbedding, h]
    refine ⟨rfl, ?_, rfl⟩
    show (List.replicate 1536 (0 : ℤ)).length = 1536
    rw [List.length_replicate]
  · intro call text v h
    rw [getEmbeddingDefault, nomicGetEmbedding, h]
    exact ⟨rfl, rfl⟩

/-- Witness for claim C8 at a concrete text and an always-failing call. -/
theorem c8_embedding_witness :
    getEmbeddingDefault (fun _ => none) "hi".toList = List.replicate 1536 0 ∧
    (getEmbeddingDefault (fun _ => none) "hi".toList).length = 1536 ∧
    nomicGetEmbedding (fun _ => none) "hi".toList = Except.error () :=
  (c8_embedding_truncation_and_degraded_vector.2.1 (fun _ => none) "hi".toList rfl)

/-- Claim C10: in the module-level pipeline variant, insert_chunk catches
every exception of the store insert and yields none in its place, so
process_markdown_file reports success for the same inputs whatever the
insert oracle does: the file is reported processed even when some or all of
its passages failed to persist, each chunk yields exactly one insert
attempt, with no retry, and a store insert failure never aborts the file or
the directory walk (the walk counts the file as processed whenever its run
reports a result). -/
theorem c10_insert_failure_swallowed :
    (∀ (ins : ProcessedChunkB → Except Unit Unit) (c : ProcessedChunkB),
      (∃ e, ins c = Except.error e) → insertChunkB ins c = none) ∧
    (∀ (ins : ProcessedChunkB → Except Unit Unit) (c : ProcessedChunkB) (r : Unit),
      ins c = Except.ok r → insertChunkB ins c = some r) ∧
    (∀ (filePath : List Char) (splits : List Split) (so : ℕ → List Char)
        (emb : List Char → Option (List ℤ))
        (ins1 ins2 : ProcessedChunkB → Except Unit Unit),
      (processMarkdownFileB filePath splits so emb ins1).isSome =
        (processMarkdownFileB filePath splits so emb ins2).isSome) ∧
    (∀ (filePath : List Char) (splits : List Split) (so : ℕ → List Char)
        (emb : List Char → Option (List ℤ))
        (ins : ProcessedChunkB → Except Unit Unit) (rs : List (Option Unit)),
      processMarkdownFileB filePath splits so emb ins = some rs →
        rs.length = (chunkMarkdownAssemble splits).length) ∧
    (∀ (dirsExist : List Char → Bool) (filesFor : List Char → List (List Char))
        (fileRun : List Char → Option Unit) (f : List Char),
      f ∈ (processMarkdownDirectoryB dirsExist filesFor fileRun).1 →
        (fileRun f).isSome →
        f ∈ (processMarkdownDirectoryB dirsExist filesFor fileRun).2) := by
  refine ⟨?_, ?_, ?_, ?_, ?_⟩
  · intro ins c ⟨e, he⟩
    rw [insertChunkB, he]
  · intro ins c r h
    rw [insertChunkB, h]
  · intro filePath splits so emb ins1 ins2
    rw [processMarkdownFileB, processMarkdownFileB]
    cases hm : mapOption
        (fun p => processChunkB filePath p.2 p.1 so emb)
        (chunkMarkdownAssemble splits).enum <;> simp
  · intro filePath splits so emb ins rs h
    rw [processMarkdownFileB] at h
    cases hm : mapOption
        (fun p => processChunkB filePath p.2 p.1 so emb)
        (chunkMarkdownAssemble splits).enum with
    | none => rw [hm] at h; simp at h
    | some pcs =>
      rw [hm] at h
      simp only [Option.some.injEq] at h
      subst h
      rw [List.length_map, mapOption_length _ _ _ hm, List.enum_length]
  · intro dirsExist filesFor fileRun f hf hrun
    rw [processMarkdownDirectoryB] at hf ⊢
    simp only [List.mem_filter]
    exact ⟨hf, hrun⟩

/-- Witness for claim C10: an always-failing insert is swallowed into none
at a concrete processed chunk. -/
theorem c10_insert_failure_swallowed_witness :
    insertChunkB (fun _ => Except.error ())
      { url := "u".toList, chunkNumber := 0, title := "t".toList,
        summary := "s".toList, content := "c".toList, embedding := [0],
        version := 160 } = none :=
  c10_insert_failure_swallowed.1 (fun _ => Except.error ())
    { url := "u".toList, chunkNumber := 0, title := "t".toList,
      summary := "s".toList, content := "c".toList, embedding := [0],
      version := 160 } ⟨(), rfl⟩

/-- Claim C7: extract_title_from_chunk returns the first non-empty of, in
this exact order: the full header path of the metadata; the first of Header 1
through Header 4 present and non-empty there; the first markdown heading
found in the content after excluding a heading-path line at position zero;
otherwise the first content line, stripped and truncated with an ellipsis
marker when longer than 100 characters.  In particular a chunk with no
heading path, no header-level metadata and content of two plain lines titles
as its first line, while hashes followed only by whitespace reaching the end
of the content title as the run's last pre-newline whitespace character (the
engine backtracks the greedy whitespace escape past trailing newlines). -/
theorem c7_title_fallback_chain :
    (∀ ck : Chunk, truthy ck.meta.headerPath = true →
      extractTitleFromChunk ck = ck.meta.headerPath.getD []) ∧
    (∀ ck : Chunk, truthy ck.meta.headerPath = false →
      truthy ck.meta.header1 = true →
      extractTitleFromChunk ck = ck.meta.header1.getD []) ∧
    (∀ ck : Chunk, truthy ck.meta.headerPath = false →
      truthy ck.meta.header1 = false → truthy ck.meta.header2 = true →
      extractTitleFromChunk ck = ck.meta.header2.getD []) ∧
    (∀ ck : Chunk, truthy ck.meta.headerPath = false →
      truthy ck.meta.header1 = false → truthy ck.meta.header2 = false →
      truthy ck.meta.header3 = true →
      extractTitleFromChunk ck = ck.meta.header3.getD []) ∧
    (∀ ck : Chunk, truthy ck.meta.headerPath = false →
      truthy ck.meta.header1 = false → truthy ck.meta.header2 = false →
      truthy ck.meta.header3 = false → truthy ck.meta.header4 = true →
      extractTitleFromChunk ck = ck.meta.header4.getD []) ∧
    (∀ (ck : Chunk) (g : List Char), truthy ck.meta.headerPath = false →
      truthy ck.meta.header1 = false → truthy ck.meta.header2 = false →
      truthy ck.meta.header3 = false → truthy ck.meta.header4 = false →
      scanHeader true (titleSearchContent ck) = some g →
      extractTitleFromChunk ck = g) ∧
    (∀ ck : Chunk, truthy ck.meta.headerPath = false →
      truthy ck.meta.header1 = false → truthy ck.meta.header2 = false →
      truthy ck.meta.header3 = false → truthy ck.meta.header4 = false →
      scanHeader true (titleSearchContent ck) = none →
      extractTitleFromChunk ck =
        (if 100 < (stripC ((splitOnSep ['\n'] (titleSearchContent ck)).headD [])).length
        then (stripC ((splitOnSep ['\n'] (titleSearchContent ck)).headD [])).take 97 ++
          "...".toList
        else stripC ((splitOnSep ['\n'] (titleSearchContent ck)).headD []))) ∧
    extractTitleFromChunk { content := "Just some text\nmore text".toList } =
      "Just some text".toList ∧
    extractTitleFromChunk { content := "##  \n".toList } = " ".toList := by
  refine ⟨?_, ?_, ?_, ?_, ?_, ?_, ?_, by decide, by decide⟩
  · intro ck h
    rw [extractTitleFromChunk, if_pos h]
  · intro ck h0 h1
    rw [extractTitleFromChunk, if_neg (by rw [h0]; simp), if_pos h1]
  · intro ck h0 h1 h2
    rw [extractTitleFromChunk, if_neg (by rw [h0]; simp),
      if_neg (by rw [h1]; simp), if_pos h2]
  · intro ck h0 h1 h2 h3
    rw [extractTitleFromChunk, if_neg (by rw [h0]; simp),
      if_neg (by rw [h1]; simp), if_neg (by rw [h2]; simp), if_pos h3]
  · intro ck h0 h1 h2 h3 h4
    rw [extractTitleFromChunk, if_neg (by rw [h0]; simp),
      if_neg (by rw [h1]; simp), if_neg (by rw [h2]; simp),
      if_neg (by rw [h3]; simp), if_pos h4]
  · intro ck g h0 h1 h2 h3 h4 hscan
    rw [extractTitleFromChunk, if_neg (by rw [h0]; simp),
      if_neg (by rw [h1]; simp), if_neg (by rw [h2]; simp),
      if_neg (by rw [h3]; simp), if_neg (by rw [h4]; simp), hscan]
  · intro ck h0 h1 h2 h3 h4 hscan
    rw [extractTitleFromChunk, if_neg (by rw [h0]; simp),
      if_neg (by rw [h1]; simp), if_neg (by rw [h2]; simp),
      if_neg (by rw [h3]; simp), if_neg (by rw [h4]; simp), hscan]

/-- Witness for claim C7: the heading-path tier at a concrete chunk. -/
theorem c7_title_fallback_chain_witness :
    extractTitleFromChunk
      { content := "body".toList, meta := { headerPath := some "HP".toList } } =
      (some "HP".toList).getD [] :=
  c7_title_fallback_chain.1
    { content := "body".toList, meta := { headerPath := some "HP".toList } } rfl

/-- Claim C9, counterexample: the header-path synthesis of the chunker uses
the metadata heading text verbatim; an embedded markup link in a heading is
NOT collapsed to its visible text (nor are self-link markers stripped), so
the synthesized path differs from the cleaned path the claim prescribes. -/
theorem c9_header_text_not_cleaned :
    createHeaderPath { header1 := some "Intro [x](y)".toList } =
      "[#] Intro [x](y)".toList ∧
    "[#] Intro [x](y)".toList ≠ "[#] Intro x".toList := by
  decide

/-- Claim C9 as amended: the synthesized heading path is the spaced-angle
join of the bracketed level marker and the VERBATIM heading text for each of
Header 1 through Header 4 present with non-empty text; a heading with empty
text is skipped exactly like a missing one; and each assembled chunk records
the heading path in its metadata and carries content equal to the heading
path, a newline and the section text when the path is nonempty, and the
section text unchanged otherwise. -/
theorem c9_header_path_join_and_prefix :
    (∀ m : ChunkMeta, m.header1 = some [] →
      createHeaderPath m = createHeaderPath { m with header1 := none }) ∧
    (∀ m : ChunkMeta, m.header2 = some [] →
      createHeaderPath m = createHeaderPath { m with header2 := none }) ∧
    (∀ m : ChunkMeta, m.header3 = some [] →
      createHeaderPath m = createHeaderPath { m with header3 := none }) ∧
    (∀ m : ChunkMeta, m.header4 = some [] →
      createHeaderPath m = createHeaderPath { m with header4 := none }) ∧
    (createHeaderPath { header1 := some "A".toList, header2 := some [],
                        header3 := some "C".toList } = "[#] A > [###] C".toList) ∧
    (∀ splits : List Split, chunkMarkdownAssemble splits = splits.map assembleChunk) ∧
    (∀ s : Split,
      (assembleChunk s).meta.headerPath = some (createHeaderPath
        { headerPath := none, header1 := s.header1, header2 := s.header2,
          header3 := s.header3, header4 := s.header4 }) ∧
      (createHeaderPath
          { headerPath := none, header1 := s.header1, header2 := s.header2,
            header3 := s.header3, header4 := s.header4 } = [] →
        (assembleChunk s).content = s.pageContent) ∧
      (createHeaderPath
          { headerPath := none, header1 := s.header1, header2 := s.header2,
            header3 := s.header3, header4 := s.header4 } ≠ [] →
        (assembleChunk s).content = createHeaderPath
          { headerPath := none, header1 := s.header1, header2 := s.header2,
            header3 := s.header3, header4 := s.header4 } ++
          '\n' :: s.pageContent)) := by
  refine ⟨?_, ?_, ?_, ?_, by decide, fun _ => rfl, ?_⟩
  · intro m h; rw [createHeaderPath, createHeaderPath, h]; rfl
  · intro m h; rw [createHeaderPath, createHeaderPath, h]; rfl
  · intro m h; rw [createHeaderPath, createHeaderPath, h]; rfl
  · intro m h; rw [createHeaderPath, createHeaderPath, h]; rfl
  · intro s
    refine ⟨rfl, ?_, ?_⟩
    · intro h
      rw [assembleChunk]
      simp only [h]
      rfl
    · intro h
      rw [assembleChunk]
      simp only [if_pos h]

/-- Witness for claim C9: a level-two heading with empty text is skipped
exactly like a missing one. -/
theorem c9_header_path_join_and_prefix_witness :
    createHeaderPath { header1 := some "A".toList, header2 := some [] } =
      createHeaderPath { header1 := some "A".toList, header2 := none } :=
  c9_header_path_join_and_prefix.2.1 { header1 := some "A".toList, header2 := some [] } rfl

/-- Witness for claim C3: one version directory with a succeeding file and a
failing file; the failing file is absent from the final checkpoint of the
run. -/
theorem c3_checkpoint_crash_safety_witness :
    progHas (processDirectoryA (fun _ => true)
      (fun v => if v = "16.0".toList then ["f1".toList, "f2".toList] else [])
      (fun _ => 1) (fun f _ _ => f = "f2".toList) []).1.progress
      "16.0".toList "f2".toList = false :=
  (c3_checkpoint_crash_safety (fun _ => true)
      (fun v => if v = "16.0".toList then ["f1".toList, "f2".toList] else [])
      (fun _ => 1) (fun f _ _ => f = "f2".toList) []).2.2.2
    "f2".toList (by decide) (fun _ => rfl) "16.0".toList

/-! ### Path-regex lemmas (claims C5 and C6) -/

end OdooExpert
